import Mathlib

/-!
Shallow embedding of `src/textual/document/_wrapped_document.py`
(class `WrappedDocument`): an incremental cache mapping a logical text
document onto its wrapped visual representation at a fixed width.

Modelling conventions:
* a Python string is modelled as its list of characters (`PyStr`);
* the document is modelled by its list of lines (`document.lines` in the
  source); `line_count()` is the list length;
* Python list slicing `l[a:b]` and slice assignment `l[a:b] = new` (for
  non-negative bounds, the only ones the code uses) are modelled by
  `pyslice` and `pysetSlice`, with Python's clamping semantics;
* the external line-splitting algorithm `rich._wrap.divide_line` is an
  explicit function parameter `divide_line : PyStr → Nat → List Nat`
  (the spec treats it as an external pure collaborator);
* `rich.text.Text.divide` (the other external collaborator used by the
  `lines` property) is modelled by `divide`, splitting a text at the
  boundary list `[0, *offsets, len(text)]` exactly as rich does;
* operations that can raise in Python (`offset_to_line_index`,
  `get_offsets`, the `lines` property's out-of-range indexing) return
  `Option`, with `none` standing for the raised error;
* machine integers are `Int`/`Nat`; offsets passed from callers are `Int`
  so that negative arguments (which the code checks for) are expressible.
-/

/-- A Python string, modelled as its list of characters. -/
abbrev PyStr := List Char

/-- Python list slice `l[a:b]` for non-negative bounds `a`, `b`:
the elements at indices `[a, b)`, silently clamped to the list. -/
def pyslice (a b : Nat) (l : List α) : List α :=
  (l.take b).drop a

/-- Python slice assignment `l[a:b] = new` for non-negative bounds:
keeps the first `min a (length l)` elements, then `new`, then the elements
from index `max (min a (length l)) (min b (length l))` on.  (`l.take a`
already clamps, and `l.drop c` for `c ≥ length l` is `[]`, so the clamping
`min`s that make no difference are omitted.) -/
def pysetSlice (a b : Nat) (new : List α) (l : List α) : List α :=
  l.take a ++ new ++ l.drop (max (min a l.length) b)

/-- Walk of the consecutive boundary pairs used by `rich.text.Text.divide`:
`divideGo text a [b₁, b₂, …]` produces the slices `text[a:b₁]`,
`text[b₁:b₂]`, …. -/
def divideGo (text : PyStr) (a : Nat) : List Nat → List PyStr
  | [] => []
  | b :: rest => pyslice a b text :: divideGo text b rest

/-- Model of the external `rich.text.Text.divide`: with no offsets the text
is returned whole; otherwise the text is cut at the boundaries
`[0, *offsets, len(text)]`, yielding `len(offsets) + 1` pieces. -/
def divide (text : PyStr) (offsets : List Nat) : List PyStr :=
  match offsets with
  | [] => [text]
  | _ => divideGo text 0 (offsets ++ [text.length])

/-- State of a `WrappedDocument` instance.  Field names follow the Python
attributes with the leading underscore dropped.  `document` holds the lines
of the wrapped-over document (the source reads `self._document.lines`). -/
structure WrappedDocument where
  document : List PyStr
  width : Nat
  wrapOffsets : List (List Nat)
  offsetToDocumentLine : List Nat
deriving Repr, DecidableEq

/-- Embedding of `WrappedDocument.__init__`: stores the document and width
and initialises both caches to empty lists. -/
def WrappedDocument.init (document : List PyStr) (width : Nat) : WrappedDocument :=
  { document := document
    width := width
    wrapOffsets := []
    offsetToDocumentLine := [] }

/-- Embedding of `WrappedDocument.wrap`: recompute the offsets of every
document line at the current width and replace the whole table. -/
def wrap (divide_line : PyStr → Nat → List Nat) (st : WrappedDocument) : WrappedDocument :=
  { st with wrapOffsets := st.document.map (fun line => divide_line line st.width) }

/-- Lockstep walk of the document lines and the offset table used by the
`lines` property: Python's `self._wrap_offsets[line_index]` raises
`IndexError` (modelled by `none`) as soon as a line has no table entry. -/
def linesGo : List PyStr → List (List Nat) → Option (List (List PyStr))
  | [], _ => some []
  | _ :: _, [] => none
  | line :: restLines, offs :: restOffs =>
    (linesGo restLines restOffs).map (fun tail => divide line offs :: tail)

/-- Embedding of the `WrappedDocument.lines` property: for every document
line, divide it at its cached wrap offsets. -/
def WrappedDocument.lines (st : WrappedDocument) : Option (List (List PyStr)) :=
  linesGo st.document st.wrapOffsets

/-- Embedding of `WrappedDocument.refresh_range`.  The source reads
`self._document.lines[start_row : new_end_row + 2]`, recomputes offsets for
those lines at the current width, and slice-assigns the result over
`self._wrap_offsets[start_row : old_end_row]`.  The Python body has no
failure path (slicing never raises), so the embedding is a total function. -/
def refresh_range (divide_line : PyStr → Nat → List Nat) (st : WrappedDocument)
    (start old_end new_end : Nat × Nat) : WrappedDocument :=
  let start_row := start.1
  let end_row := new_end.1
  let new_lines := pyslice start_row (end_row + 2) st.document
  let new_wrap_offsets := new_lines.map (fun line => divide_line line st.width)
  let old_end_row := old_end.1
  { st with wrapOffsets := pysetSlice start_row old_end_row new_wrap_offsets st.wrapOffsets }

/-- Scan loop of `offset_to_line_index`: accumulate each line's visual
height `len(line_offsets) + 1` and return the first index whose cumulative
height exceeds the queried offset. -/
def offsetToLineIndexGo : List (List Nat) → Nat → Nat → Nat → Option Nat
  | [], _, _, _ => none
  | lineOffsets :: rest, lineIndex, currentOffset, offset =>
    let cur := currentOffset + (lineOffsets.length + 1)
    if offset < cur then some lineIndex
    else offsetToLineIndexGo rest (lineIndex + 1) cur offset

/-- Embedding of `WrappedDocument.offset_to_line_index`: negative offsets
fail immediately; otherwise a left-to-right prefix-sum scan over the table;
falling off the end (offset at or beyond the total height) fails. -/
def offset_to_line_index (st : WrappedDocument) (offset : Int) : Option Nat :=
  if offset < 0 then none
  else offsetToLineIndexGo st.wrapOffsets 0 0 offset.toNat

/-- Embedding of `WrappedDocument.get_offsets`: bounds-checked read of the
offset table (`none` models the raised `ValueError`). -/
def get_offsets (st : WrappedDocument) (line_index : Int) : Option (List Nat) :=
  if line_index < 0 ∨ (st.wrapOffsets.length : Int) ≤ line_index then none
  else some (st.wrapOffsets.getD line_index.toNat [])

/-- Visual height contributed by one logical line: `len(offsets) + 1`. -/
def lineHeight (entry : List Nat) : Nat := entry.length + 1

/-- Total visual height of a wrapped table. -/
def totalHeight (tbl : List (List Nat)) : Nat := (tbl.map lineHeight).sum

/-- Prefix sum of visual heights: the total height of the first `i` lines. -/
def cumHeight (tbl : List (List Nat)) (i : Nat) : Nat :=
  ((tbl.take i).map lineHeight).sum

/-- A concrete, deterministic line splitter used for the concrete
scenarios: break every `width` cells (`width = 0` never wraps).  On
`"hello world"` at width `5` it yields `[5, 10]` and on `"foo"` it yields
`[]`, matching the example splitter of the specification. -/
def chunkSplit (line : PyStr) (width : Nat) : List Nat :=
  if width = 0 then []
  else (List.range ((line.length - 1) / width)).map (fun k => (k + 1) * width)

example : chunkSplit "hello world".toList 5 = [5, 10] := by decide
example : chunkSplit "foo".toList 5 = [] := by decide
example : chunkSplit "aaaaaaa".toList 5 = [5] := by decide

/-! Concrete scenario used for the length-invariant and incrementality
claims: the specification's running example, `["hello world", "foo"]`
wrapped at width 5, edited by inserting a newline at `(0, 5)`. -/

/-- The example document before the edit. -/
def docPre : List PyStr := ["hello world".toList, "foo".toList]

/-- The state after construction at width 5 and a full `wrap()`. -/
def stWrapped : WrappedDocument := wrap chunkSplit (WrappedDocument.init docPre 5)

/-- The example document after inserting a newline at `(0, 5)`. -/
def docPost : List PyStr := ["hello".toList, " world".toList, "foo".toList]

/-- The state after the external edit mutates the document (the table is
not yet refreshed). -/
def stEdited : WrappedDocument := { stWrapped with document := docPost }

/-- The state after the matching
`refresh_range(start=(0,5), old_end=(0,5), new_end=(1,0))` call. -/
def stRefreshed : WrappedDocument :=
  refresh_range chunkSplit stEdited (0, 5) (0, 5) (1, 0)

/-! Concrete scenario for the single-row-edit incrementality claim:
three lines, the first edited in place (`"hello" → "HELLO"`) with no
row-count change. -/

/-- Three-line document before the single-row edit. -/
def docPreB : List PyStr := ["hello world".toList, "foo".toList, "aaaaaaa".toList]

/-- Its wrapped state at width 5: offsets `[[5, 10], [], [5]]`. -/
def stWrappedB : WrappedDocument := wrap chunkSplit (WrappedDocument.init docPreB 5)

/-- The document after replacing columns 0–5 of row 0 by `"HELLO"`:
an edit confined to row 0 that leaves the row count at 3. -/
def docPostB : List PyStr := ["HELLO world".toList, "foo".toList, "aaaaaaa".toList]

/-- The state after the matching
`refresh_range(start=(0,0), old_end=(0,5), new_end=(0,5))` call. -/
def stRefreshedB : WrappedDocument :=
  refresh_range chunkSplit { stWrappedB with document := docPostB } (0, 0) (0, 5) (0, 5)

/-- C1: the claimed invariant `table.length == document.line_count()` is
broken by `refresh_range`.  On the specification's own example (insert a
newline at `(0,5)` of `["hello world", "foo"]`, then call
`refresh_range((0,5), (0,5), (1,0))`) the table ends with 5 entries while
the document has 3 lines: the slice assignment
`_wrap_offsets[start_row:old_end_row]` (exclusive bound `old_end_row`,
here `[0:0]`) inserts the recomputed entries without removing the stale
ones.  (The invariant does hold after `wrap()`; see
`wrap_table_length` below.) -/
theorem refresh_range_breaks_length_invariant :
    stRefreshed.wrapOffsets.length = 5 ∧ stRefreshed.document.length = 3 ∧
      stRefreshed.wrapOffsets.length ≠ stRefreshed.document.length := by
  decide

/-- After a full `wrap()` the table does have one entry per document line
(the half of the length-invariant claim that the code satisfies). -/
theorem wrap_table_length (divide_line : PyStr → Nat → List Nat) (st : WrappedDocument) :
    (wrap divide_line st).wrapOffsets.length = (wrap divide_line st).document.length := by
  simp [wrap]

/-- C2: incrementality fails.  For the single-row edit
`"hello" → "HELLO"` in row 0 of `["hello world", "foo", "aaaaaaa"]`
(no row-count change), the matching
`refresh_range((0,0), (0,5), (0,5))` call changes the entry of row 2
(`"aaaaaaa"`, untouched by the edit) from `[5]` to `[5, 10]`: the
recomputed entries are spliced in without removing the old ones, shifting
every entry at or after the edited row. -/
theorem refresh_range_changes_untouched_row :
    docPreB.length = 3 ∧ docPostB.length = 3 ∧
      stWrappedB.wrapOffsets.getD 2 [] = [5] ∧
      stRefreshedB.wrapOffsets.getD 2 [] = [5, 10] ∧
      stRefreshedB.wrapOffsets.getD 2 [] ≠ stWrappedB.wrapOffsets.getD 2 [] := by
  decide

/-- C6: `get_offsets` returns the stored entry exactly when the queried
index lies in `[0, table.length)` and fails (returns `none`, modelling the
raised `ValueError`) otherwise — in particular at `-1` and at
`table.length`. -/
theorem get_offsets_checks_bounds (st : WrappedDocument) (line_index : Int) :
    get_offsets st line_index =
      if 0 ≤ line_index ∧ line_index < (st.wrapOffsets.length : Int)
      then some (st.wrapOffsets.getD line_index.toNat [])
      else none := by
  simp only [get_offsets]
  split_ifs with h h' <;> first | rfl | omega

/-- C7: `wrap()` is idempotent — it reads only the document and the width,
neither of which it changes, so a repeated call with unchanged inputs
rebuilds the identical table (the splitter is a function, hence
deterministic). -/
theorem wrap_idempotent (divide_line : PyStr → Nat → List Nat) (st : WrappedDocument) :
    wrap divide_line (wrap divide_line st) = wrap divide_line st :=
  rfl

/-- C9: `refresh_range` validates nothing.  The embedding is a total
function (the Python body contains no raise and list slicing never
raises), and rows at or beyond the document's line count and the table's
length are silently clamped by the slicing: such a call leaves the table
exactly as it was instead of failing. -/
theorem refresh_range_out_of_bounds_rows_noop (divide_line : PyStr → Nat → List Nat)
    (st : WrappedDocument) (s oe ne c1 c2 c3 : Nat)
    (h1 : st.document.length ≤ s) (h2 : st.wrapOffsets.length ≤ s)
    (h3 : st.wrapOffsets.length ≤ oe) :
    (refresh_range divide_line st (s, c1) (oe, c2) (ne, c3)).wrapOffsets = st.wrapOffsets := by
  simp only [refresh_range, pysetSlice, pyslice]
  have hnl : (st.document.take (ne + 2)).drop s = [] := by
    apply List.drop_eq_nil_of_le
    have := List.length_take (ne + 2) st.document
    omega
  have htk : st.wrapOffsets.take s = st.wrapOffsets := List.take_of_length_le h2
  have hdr : st.wrapOffsets.drop (max (min s st.wrapOffsets.length) oe) = [] := by
    apply List.drop_eq_nil_of_le
    omega
  rw [hnl, htk, hdr]
  simp

/-- Witness for C9 at a concrete out-of-bounds call: rows 9 on the
two-line wrapped example leave the table untouched. -/
theorem refresh_range_out_of_bounds_rows_noop_witness :
    (refresh_range chunkSplit stWrapped (9, 0) (9, 0) (9, 0)).wrapOffsets =
      stWrapped.wrapOffsets :=
  refresh_range_out_of_bounds_rows_noop chunkSplit stWrapped 9 9 9 0 0 0
    (by decide) (by decide) (by decide)

/-- C10: immediately after construction the offsets table is empty
whatever the document holds, so on a non-empty document the `lines`
property hits an out-of-bounds table index (modelled by `none`) instead of
returning a wrapped view. -/
theorem lines_fails_before_wrap (document : List PyStr) (width : Nat)
    (h : document ≠ []) :
    (WrappedDocument.init document width).wrapOffsets = [] ∧
      (WrappedDocument.init document width).lines = none := by
  refine ⟨rfl, ?_⟩
  cases document with
  | nil => exact absurd rfl h
  | cons line rest => rfl

/-- Witness for C10 on the concrete two-line example document. -/
theorem lines_fails_before_wrap_witness :
    (WrappedDocument.init docPre 5).wrapOffsets = [] ∧
      (WrappedDocument.init docPre 5).lines = none :=
  lines_fails_before_wrap docPre 5 (by decide)

/-- A Python slice, written as the list of its elements read off by index:
`l[a:b]` holds exactly the elements at indices `a, a+1, …, min b (length l) - 1`. -/
theorem pyslice_eq_range_map (a b : Nat) (l : List α) (d : α) :
    pyslice a b l = (List.range' a (min b l.length - a)).map (fun r => l.getD r d) := by
  have hlen : (pyslice a b l).length = min b l.length - a := by
    simp [pyslice]
  apply List.ext_getElem
  · rw [hlen]; simp
  · intro n h1 h2
    have hn : n < min b l.length - a := by rw [hlen] at h1; exact h1
    have hbound : a + n < l.length := by omega
    simp only [pyslice]
    rw [List.getElem_drop, List.getElem_take, List.getElem_map, List.getElem_range']
    rw [Nat.one_mul, List.getD_eq_getElem l d hbound]

/-- Adjacent Python slices concatenate: `l[a:b] + l[b:c] = l[a:c]`
whenever `a ≤ b ≤ c`, including bounds beyond the end of the list. -/
theorem pyslice_append_merge (l : List α) (a b c : Nat) (hab : a ≤ b) (hbc : b ≤ c) :
    pyslice a b l ++ pyslice b c l = pyslice a c l := by
  simp only [pyslice]
  have htk : l.take b = (l.take c).take b := by
    rw [List.take_take, Nat.min_eq_left hbc]
  rw [htk]
  conv_rhs => rw [← List.take_append_drop b (l.take c)]
  rw [List.drop_append_eq_append_drop]
  congr 1
  by_cases h0 : a - ((l.take c).take b).length = 0
  · rw [h0, List.drop_zero]
  · have hlen : ((l.take c).take b).length = b ⊓ (l.take c).length := List.length_take b _
    have hnil : (l.take c).drop b = [] := by
      apply List.drop_eq_nil_of_le
      omega
    rw [hnil]
    simp

/-- Modelled from the claim's words (spec §4.3): recompute the inclusive
row range `[start.row, min(new_end.row + 1, line_count - 1)]` against the
current document at the current width, and replace the table entries in
`[start.row, old_end.row)` with the recomputed ones. -/
def refresh_range_claimed (divide_line : PyStr → Nat → List Nat) (document : List PyStr)
    (width : Nat) (tbl : List (List Nat)) (startRow oldEndRow newEndRow : Nat) :
    List (List Nat) :=
  let upper := min (newEndRow + 1) (document.length - 1)
  let rows := List.range' startRow (upper + 1 - startRow)
  let newEntries := rows.map (fun r => divide_line (document.getD r []) width)
  tbl.take startRow ++ newEntries ++ tbl.drop oldEndRow

/-- C3: on a non-empty document, and for `start.row ≤ old_end.row` with the
replaced entries present, `refresh_range` computes exactly what the claim
describes: one fresh entry per row of the inclusive range
`[start.row, min(new_end.row + 1, line_count - 1)]` (the guard row clamped
to the last valid index), spliced over the table entries in
`[start.row, old_end.row)` with `old_end.row` as the exclusive bound. -/
theorem refresh_range_matches_claimed (divide_line : PyStr → Nat → List Nat)
    (st : WrappedDocument) (s oe ne c1 c2 c3 : Nat)
    (hdoc : 0 < st.document.length) (hrange : s ≤ oe) :
    (refresh_range divide_line st (s, c1) (oe, c2) (ne, c3)).wrapOffsets =
      refresh_range_claimed divide_line st.document st.width st.wrapOffsets s oe ne := by
  simp only [refresh_range, refresh_range_claimed, pysetSlice]
  have hmax : max (min s st.wrapOffsets.length) oe = oe := by omega
  rw [hmax, pyslice_eq_range_map s (ne + 2) st.document [], List.map_map]
  have hlen : min (ne + 2) st.document.length - s =
      min (ne + 1) (st.document.length - 1) + 1 - s := by omega
  rw [hlen]
  rfl

/-- Witness for C3 on the concrete post-edit scenario:
`refresh_range((0,5), (0,5), (1,0))` on the three-line edited document. -/
theorem refresh_range_matches_claimed_witness :
    (refresh_range chunkSplit stEdited (0, 5) (0, 5) (1, 0)).wrapOffsets =
      refresh_range_claimed chunkSplit stEdited.document stEdited.width
        stEdited.wrapOffsets 0 0 1 :=
  refresh_range_matches_claimed chunkSplit stEdited 0 0 1 5 5 0
    (by decide) (by decide)

/-- Unfolding equation for the scan loop on an empty table. -/
theorem offsetToLineIndexGo_nil (idx cur o : Nat) :
    offsetToLineIndexGo [] idx cur o = none := rfl

/-- Unfolding equation for one step of the scan loop. -/
theorem offsetToLineIndexGo_cons (e : List Nat) (rest : List (List Nat)) (idx cur o : Nat) :
    offsetToLineIndexGo (e :: rest) idx cur o =
      if o < cur + (e.length + 1) then some idx
      else offsetToLineIndexGo rest (idx + 1) (cur + (e.length + 1)) o := rfl

/-- The first zero prefix heights are zero. -/
theorem cumHeight_zero (tbl : List (List Nat)) : cumHeight tbl 0 = 0 := rfl

/-- Peeling one line off a prefix-height sum. -/
theorem cumHeight_cons_succ (e : List Nat) (rest : List (List Nat)) (k : Nat) :
    cumHeight (e :: rest) (k + 1) = (e.length + 1) + cumHeight rest k := by
  simp [cumHeight, lineHeight]

/-- Total height of a cons table. -/
theorem totalHeight_cons (e : List Nat) (rest : List (List Nat)) :
    totalHeight (e :: rest) = (e.length + 1) + totalHeight rest := by
  simp [totalHeight, lineHeight]

/-- Prefix sums of visual heights are monotone in the line index. -/
theorem cumHeight_mono (tbl : List (List Nat)) {j k : Nat} (h : j ≤ k) :
    cumHeight tbl j ≤ cumHeight tbl k := by
  have hsplit : cumHeight tbl k =
      cumHeight tbl j + (((tbl.drop j).take (k - j)).map lineHeight).sum := by
    conv_lhs => rw [show k = j + (k - j) by omega]
    simp only [cumHeight]
    rw [List.take_add, List.map_append, List.sum_append]
  omega

/-- The full prefix sum is the total height. -/
theorem cumHeight_length (tbl : List (List Nat)) :
    cumHeight tbl tbl.length = totalHeight tbl := by
  simp [cumHeight, totalHeight, List.take_length]

/-- Scan-loop correctness, successful case: when the queried offset lies
strictly below the accumulated height of the whole remaining table, the
loop returns the first index whose cumulative height exceeds the offset. -/
theorem offsetToLineIndexGo_found :
    ∀ (entries : List (List Nat)) (idx cur o : Nat), cur ≤ o →
      o < cur + totalHeight entries →
      ∃ i, i < entries.length ∧
        offsetToLineIndexGo entries idx cur o = some (idx + i) ∧
        cur + cumHeight entries i ≤ o ∧ o < cur + cumHeight entries (i + 1) := by
  intro entries
  induction entries with
  | nil =>
    intro idx cur o h1 h2
    simp [totalHeight] at h2
    omega
  | cons e rest ih =>
    intro idx cur o h1 h2
    by_cases hcase : o < cur + (e.length + 1)
    · refine ⟨0, by simp, ?_, ?_, ?_⟩
      · rw [offsetToLineIndexGo_cons, if_pos hcase]
        simp
      · rw [cumHeight_zero]
        omega
      · rw [cumHeight_cons_succ, cumHeight_zero]
        omega
    · have hge : cur + (e.length + 1) ≤ o := by omega
      have h2' : o < (cur + (e.length + 1)) + totalHeight rest := by
        rw [totalHeight_cons] at h2
        omega
      obtain ⟨i, hi, heq, hlo, hhi⟩ := ih (idx + 1) (cur + (e.length + 1)) o hge h2'
      refine ⟨i + 1, by simp only [List.length_cons]; omega, ?_, ?_, ?_⟩
      · rw [offsetToLineIndexGo_cons, if_neg hcase, heq]
        congr 1
        omega
      · rw [cumHeight_cons_succ]
        omega
      · rw [cumHeight_cons_succ]
        omega

/-- Scan-loop correctness, failure case: starting at an accumulated height
not above the queried offset, the loop falls off the end exactly when the
offset is at or beyond the accumulated total height. -/
theorem offsetToLineIndexGo_none_iff :
    ∀ (entries : List (List Nat)) (idx cur o : Nat), cur ≤ o →
      (offsetToLineIndexGo entries idx cur o = none ↔ cur + totalHeight entries ≤ o) := by
  intro entries
  induction entries with
  | nil =>
    intro idx cur o h
    rw [offsetToLineIndexGo_nil]
    simp [totalHeight]
    omega
  | cons e rest ih =>
    intro idx cur o h
    rw [offsetToLineIndexGo_cons, totalHeight_cons]
    by_cases hcase : o < cur + (e.length + 1)
    · rw [if_pos hcase]
      constructor
      · intro hsome
        simp at hsome
      · intro hle
        exact absurd hle (by omega)
    · rw [if_neg hcase]
      rw [ih (idx + 1) (cur + (e.length + 1)) o (by omega)]
      constructor <;> intro <;> omega

/-- C4: for every offset in `[0, totalHeight)`, `offset_to_line_index`
returns the smallest line index whose prefix height sum exceeds the
offset, equivalently the unique `i` with
`cumHeight i ≤ offset < cumHeight (i + 1)` (the claim's
`prefix(i-1) ≤ offset < prefix(i)`). -/
theorem offset_to_line_index_finds_unique_line (st : WrappedDocument) (offset : Int)
    (h0 : 0 ≤ offset) (h1 : offset < (totalHeight st.wrapOffsets : Int)) :
    ∃ i, offset_to_line_index st offset = some i ∧
      (cumHeight st.wrapOffsets i : Int) ≤ offset ∧
      offset < (cumHeight st.wrapOffsets (i + 1) : Int) ∧
      (∀ j : Nat, offset < (cumHeight st.wrapOffsets (j + 1) : Int) → i ≤ j) ∧
      (∀ j : Nat, (cumHeight st.wrapOffsets j : Int) ≤ offset →
        offset < (cumHeight st.wrapOffsets (j + 1) : Int) → j = i) := by
  have h1' : offset.toNat < totalHeight st.wrapOffsets := by omega
  obtain ⟨i, hi, heq, hlo, hhi⟩ :=
    offsetToLineIndexGo_found st.wrapOffsets 0 0 offset.toNat (Nat.zero_le _) (by omega)
  refine ⟨i, ?_, by omega, by omega, ?_, ?_⟩
  · rw [offset_to_line_index, if_neg (by omega)]
    rw [heq]
    congr 1
    omega
  · intro j hj
    by_contra hc
    push_neg at hc
    have := cumHeight_mono st.wrapOffsets (show j + 1 ≤ i by omega)
    omega
  · intro j hj1 hj2
    by_contra hc
    rcases Nat.lt_or_ge j i with hlt | hge
    · have := cumHeight_mono st.wrapOffsets (show j + 1 ≤ i by omega)
      omega
    · have := cumHeight_mono st.wrapOffsets (show i + 1 ≤ j by omega)
      omega

/-- Witness for C4 on the wrapped example (heights 3 and 1, total 4):
offset `3` is located, uniquely, on line 1. -/
theorem offset_to_line_index_finds_unique_line_witness :
    ∃ i, offset_to_line_index stWrapped 3 = some i ∧
      (cumHeight stWrapped.wrapOffsets i : Int) ≤ 3 ∧
      (3 : Int) < (cumHeight stWrapped.wrapOffsets (i + 1) : Int) ∧
      (∀ j : Nat, (3 : Int) < (cumHeight stWrapped.wrapOffsets (j + 1) : Int) → i ≤ j) ∧
      (∀ j : Nat, (cumHeight stWrapped.wrapOffsets j : Int) ≤ 3 →
        (3 : Int) < (cumHeight stWrapped.wrapOffsets (j + 1) : Int) → j = i) :=
  offset_to_line_index_finds_unique_line stWrapped 3 (by decide) (by decide)

/-- C5: `offset_to_line_index` fails (returns `none`, modelling the raised
error, which propagates instead of being clamped) exactly when the offset
is negative or at or beyond the total visual height — in particular at
`-1` and at `totalHeight`. -/
theorem offset_to_line_index_fails_iff (st : WrappedDocument) (offset : Int) :
    offset_to_line_index st offset = none ↔
      offset < 0 ∨ (totalHeight st.wrapOffsets : Int) ≤ offset := by
  rw [offset_to_line_index]
  by_cases hneg : offset < 0
  · rw [if_pos hneg]
    simp [hneg]
  · rw [if_neg hneg]
    rw [offsetToLineIndexGo_none_iff st.wrapOffsets 0 0 offset.toNat (Nat.zero_le _)]
    omega

/-- A chain of `≤` steps never descends below its head: the last element
(defaulting to the head) dominates the head. -/
theorem chain_le_getLastD :
    ∀ (rest : List Nat) (b : Nat), List.Chain (· ≤ ·) b rest → b ≤ rest.getLastD b := by
  intro rest
  induction rest with
  | nil => intro b _; exact Nat.le_refl b
  | cons c rs ih =>
    intro b h
    rcases List.chain_cons.mp h with ⟨hbc, hchain⟩
    rw [List.getLastD_cons]
    exact Nat.le_trans hbc (ih c hchain)

/-- Concatenating the boundary-pair slices recovers a single slice from the
first boundary to the largest one, provided the boundaries ascend. -/
theorem divideGo_flatten (text : PyStr) :
    ∀ (bs : List Nat) (a L : Nat), List.Chain (· ≤ ·) a bs →
      (divideGo text a (bs ++ [L])).flatten =
        pyslice a (max (bs.getLastD a) L) text := by
  intro bs
  induction bs with
  | nil =>
    intro a L _
    simp only [List.nil_append, divideGo, List.flatten_cons, List.flatten_nil,
      List.append_nil, List.getLastD_nil]
    rcases Nat.le_total a L with h | h
    · rw [Nat.max_eq_right h]
    · rw [Nat.max_eq_left h]
      have h1 : pyslice a L text = [] := by
        apply List.drop_eq_nil_of_le
        rw [List.length_take]
        omega
      have h2 : pyslice a a text = [] := by
        apply List.drop_eq_nil_of_le
        rw [List.length_take]
        omega
      rw [h1, h2]
  | cons b rest ih =>
    intro a L hchain
    rcases List.chain_cons.mp hchain with ⟨hab, hchain'⟩
    show (pyslice a b text :: divideGo text b (rest ++ [L])).flatten =
      pyslice a (max ((b :: rest).getLastD a) L) text
    rw [List.flatten_cons, ih b L hchain']
    have hblast : b ≤ rest.getLastD b := chain_le_getLastD rest b hchain'
    have hbm : b ≤ max (rest.getLastD b) L := Nat.le_trans hblast (Nat.le_max_left _ _)
    rw [pyslice_append_merge text a b (max (rest.getLastD b) L) hab hbm]
    rw [List.getLastD_cons]

/-- Dividing a text at ascending offsets is a partition: concatenating the
pieces reproduces the text exactly. -/
theorem divide_flatten (text : PyStr) (offsets : List Nat)
    (h : List.Chain' (· ≤ ·) offsets) : (divide text offsets).flatten = text := by
  cases offsets with
  | nil => simp [divide]
  | cons o os =>
    have hchain : List.Chain (· ≤ ·) 0 (o :: os) :=
      List.chain_cons.mpr ⟨Nat.zero_le o, h⟩
    show (divideGo text 0 ((o :: os) ++ [text.length])).flatten = text
    rw [divideGo_flatten text (o :: os) 0 text.length hchain]
    simp only [pyslice, List.drop_zero]
    exact List.take_of_length_le (Nat.le_max_right _ _)

/-- Shape of a successful `lines` walk: one output group per document
line, each group dividing its line at that line's stored offsets. -/
theorem linesGo_spec :
    ∀ (docLines : List PyStr) (offs : List (List Nat)) (ls : List (List PyStr)),
      linesGo docLines offs = some ls →
      ls.length = docLines.length ∧
        ∀ i, i < docLines.length →
          ls.getD i [] = divide (docLines.getD i []) (offs.getD i []) := by
  intro docLines
  induction docLines with
  | nil =>
    intro offs ls h
    simp only [linesGo, Option.some.injEq] at h
    subst h
    exact ⟨rfl, fun i hi => absurd hi (by simp)⟩
  | cons line rest ih =>
    intro offs ls h
    cases offs with
    | nil => simp [linesGo] at h
    | cons o orest =>
      simp only [linesGo] at h
      cases htail : linesGo rest orest with
      | none => rw [htail] at h; simp at h
      | some tail =>
        rw [htail] at h
        simp only [Option.map_some', Option.some.injEq] at h
        subst h
        obtain ⟨hlen, hget⟩ := ih orest tail htail
        refine ⟨by simp [hlen], ?_⟩
        intro i hi
        cases i with
        | zero => rfl
        | succ n =>
          simp only [List.getD_cons_succ]
          exact hget n (by simpa using Nat.lt_of_succ_lt_succ hi)

/-- C8: materialization is a partition.  For every logical line with a
stored (ascending) offsets entry, the `lines` property produces for that
line the ordered pieces of the line, and concatenating them reproduces the
line's text exactly — no characters dropped or duplicated. -/
theorem lines_pieces_concat (st : WrappedDocument) (ls : List (List PyStr))
    (h : st.lines = some ls) (i : Nat) (hi : i < st.document.length)
    (hchain : List.Chain' (· ≤ ·) (st.wrapOffsets.getD i [])) :
    (ls.getD i []).flatten = st.document.getD i [] := by
  obtain ⟨hlen, hget⟩ := linesGo_spec st.document st.wrapOffsets ls h
  rw [hget i hi]
  exact divide_flatten _ _ hchain

/-- The concrete wrapped view of the example document at width 5. -/
def lsWrapped : List (List PyStr) :=
  [["hello".toList, " worl".toList, "d".toList], ["foo".toList]]

/-- Witness for C8: on the wrapped example, concatenating line 0's pieces
(`"hello"`, `" worl"`, `"d"`) gives back `"hello world"`. -/
theorem lines_pieces_concat_witness :
    (lsWrapped.getD 0 []).flatten = stWrapped.document.getD 0 [] :=
  lines_pieces_concat stWrapped lsWrapped (by decide) 0 (by decide)
    (by
      rw [show stWrapped.wrapOffsets.getD 0 [] = [5, 10] from by decide]
      exact List.chain'_cons.mpr ⟨by omega, List.chain'_singleton 10⟩)
